import Mathlib

/-!
Shallow embedding of `po2lmo.py` (PO → LMO converter).

Strings are modelled at the level the source manipulates them:
* the hash and the binary writer work on UTF-8 byte sequences, modelled as
  `List Nat` with each element a byte value;
* the PO text parser works on characters, modelled as `List Char`.

All 32-bit truncation (`& 0xFFFFFFFF` in the Python source) is explicit
`% 2 ^ 32`; the two places where the source reinterprets a byte as a C
signed char go through `Int`.
-/

namespace Po2lmo

/-- Models Python `x & 0xFFFFFFFF` applied to a possibly negative integer
(the result of Python's `&` with a non-negative mask is non-negative). -/
def imask32 (x : Int) : Nat := (x % (2 ^ 32 : Int)).toNat

/-- Models the C signed-char reinterpretation in `sfh_hash`
(`if byte_val >= 128: byte_val -= 256`). -/
def signedByte (b : Nat) : Int := if b ≥ 128 then (b : Int) - 256 else (b : Int)

/-- Remainder handling of `sfh_hash` (the `length == 3 / 2 / 1` branches of
the Python source, lines 64–98); `h` is the running `hash_val`. -/
def sfhTail (h : Nat) : List Nat → Nat
  | [b0, b1, b2] =>
      let val := b0 ||| (b1 <<< 8)
      let h1 := (h + val) % 2 ^ 32
      let h2 := (h1 ^^^ (h1 <<< 16)) % 2 ^ 32
      let h3 := (h2 ^^^ imask32 (signedByte b2 * 2 ^ 18)) % 2 ^ 32
      (h3 + (h3 >>> 11)) % 2 ^ 32
  | [b0, b1] =>
      let val := b0 ||| (b1 <<< 8)
      let h1 := (h + val) % 2 ^ 32
      let h2 := (h1 ^^^ (h1 <<< 11)) % 2 ^ 32
      (h2 + (h2 >>> 17)) % 2 ^ 32
  | [b0] =>
      let h1 := imask32 ((h : Int) + signedByte b0)
      let h2 := (h1 ^^^ (h1 <<< 10)) % 2 ^ 32
      (h2 + (h2 >>> 1)) % 2 ^ 32
  | _ => h

/-- Main 4-byte-chunk loop of `sfh_hash` (Python lines 47–60), followed by
the remainder handling.  Note the source does not mask `hash_val += val1`
nor `tmp`; only the two assignments that end in `& 0xFFFFFFFF` are masked. -/
def sfhLoop (h : Nat) : List Nat → Nat
  | b0 :: b1 :: b2 :: b3 :: rest =>
      let val1 := b0 ||| (b1 <<< 8)
      let val2 := b2 ||| (b3 <<< 8)
      let h1 := h + val1
      let tmp := (val2 <<< 11) ^^^ h1
      let h2 := ((h1 <<< 16) ^^^ tmp) % 2 ^ 32
      let h3 := (h2 + (h2 >>> 11)) % 2 ^ 32
      sfhLoop h3 rest
  | rest => sfhTail h rest

/-- Final avalanche of `sfh_hash` (Python lines 101–112), plus the final
`return hash_val & 0xFFFFFFFF`. -/
def sfhAvalanche (h : Nat) : Nat :=
  let h1 := (h ^^^ (h <<< 3)) % 2 ^ 32
  let h2 := (h1 + (h1 >>> 5)) % 2 ^ 32
  let h3 := (h2 ^^^ (h2 <<< 4)) % 2 ^ 32
  let h4 := (h3 + (h3 >>> 17)) % 2 ^ 32
  let h5 := (h4 ^^^ (h4 <<< 25)) % 2 ^ 32
  let h6 := (h5 + (h5 >>> 6)) % 2 ^ 32
  h6 % 2 ^ 32

/-- `sfh_hash` of the Python source, on the UTF-8 bytes of the input string
(`data_bytes`); `hash_val` starts at the byte length. -/
def sfh_hash (data : List Nat) : Nat :=
  if data.isEmpty then 0
  else sfhAvalanche (sfhLoop data.length data)

/-! ### Spec-side model of the hash

`sfh_hash_spec` is written from the specification's words (§4.1): `h` is
initialised to the byte length *as a 32-bit value*, and in the main loop
"all arithmetic [is] truncated to 32 bits after each step".  The remainder
and avalanche steps are as the spec lists them (each masked to 32 bits). -/

/-- Modelled from the spec, §4.1 step 4: remainder handling. -/
def sfhTailSpec (h : Nat) : List Nat → Nat
  | [b0, b1, b2] =>
      let val := b0 ||| (b1 <<< 8)
      let h1 := (h + val) % 2 ^ 32
      let h2 := (h1 ^^^ (h1 <<< 16)) % 2 ^ 32
      let h3 := (h2 ^^^ imask32 (signedByte b2 * 2 ^ 18)) % 2 ^ 32
      (h3 + (h3 >>> 11)) % 2 ^ 32
  | [b0, b1] =>
      let val := b0 ||| (b1 <<< 8)
      let h1 := (h + val) % 2 ^ 32
      let h2 := (h1 ^^^ (h1 <<< 11)) % 2 ^ 32
      (h2 + (h2 >>> 17)) % 2 ^ 32
  | [b0] =>
      let h1 := imask32 ((h : Int) + signedByte b0)
      let h2 := (h1 ^^^ (h1 <<< 10)) % 2 ^ 32
      (h2 + (h2 >>> 1)) % 2 ^ 32
  | _ => h

/-- Modelled from the spec, §4.1 step 3: 4-byte chunks, little-endian 16-bit
reads, every intermediate truncated to 32 bits after each step. -/
def sfhLoopSpec (h : Nat) : List Nat → Nat
  | b0 :: b1 :: b2 :: b3 :: rest =>
      let a := b0 ||| (b1 <<< 8)
      let b := b2 ||| (b3 <<< 8)
      let h1 := (h + a) % 2 ^ 32
      let tmp := ((b <<< 11) ^^^ h1) % 2 ^ 32
      let h2 := ((h1 <<< 16) ^^^ tmp) % 2 ^ 32
      let h3 := (h2 + (h2 >>> 11)) % 2 ^ 32
      sfhLoopSpec h3 rest
  | rest => sfhTailSpec h rest

/-- Modelled from the spec, §4.1 step 5: the fixed six-step avalanche,
each step masked to 32 bits, and the result masked (step 6). -/
def sfhAvalancheSpec (h : Nat) : Nat :=
  let h1 := (h ^^^ (h <<< 3)) % 2 ^ 32
  let h2 := (h1 + (h1 >>> 5)) % 2 ^ 32
  let h3 := (h2 ^^^ (h2 <<< 4)) % 2 ^ 32
  let h4 := (h3 + (h3 >>> 17)) % 2 ^ 32
  let h5 := (h4 ^^^ (h4 <<< 25)) % 2 ^ 32
  let h6 := (h5 + (h5 >>> 6)) % 2 ^ 32
  h6 % 2 ^ 32

/-- Modelled from the spec, §4.1: return 0 on the empty input, else
initialise `h = len` (32-bit), run the chunk loop, the remainder handling
and the avalanche. -/
def sfh_hash_spec (data : List Nat) : Nat :=
  if data.isEmpty then 0
  else sfhAvalancheSpec (sfhLoopSpec (data.length % 2 ^ 32) data)

/-! ### Quoted-string extraction (`extract_string`, Python lines 117–155) -/

/-- Escape-decoding scan of `extract_string` (Python lines 131–153): the
second argument is the `escape` flag; the scan stops at an unescaped `"`
or at end of line, and a line ending inside an escape yields `none`
(Python line 155). -/
def scanQuoted : List Char → Bool → Option (List Char)
  | [], esc => if esc then none else some []
  | c :: rest, true =>
      let d := if c = '"' ∨ c = '\\' then c
               else if c = 'n' then '\n'
               else if c = 't' then '\t'
               else if c = 'r' then '\r'
               else c
      (scanQuoted rest false).map (d :: ·)
  | c :: rest, false =>
      if c = '\\' then scanQuoted rest true
      else if c = '"' then some []
      else (scanQuoted rest false).map (c :: ·)

/-- `extract_string` of the Python source: find the first `"`
(`line.find('"')`, `None` when absent), then scan from the character after
it with escape processing. -/
def extract_string (line : List Char) : Option (List Char) :=
  match line.dropWhile (· ≠ '"') with
  | [] => none
  | _ :: rest => scanQuoted rest false

/-- Modelled from the spec, §4.2: the escape table — `\n`, `\t`, `\r` decode
to their control characters, everything else (including `"` and `\`)
passes through literally with the backslash dropped. -/
def decodeEscape (c : Char) : Char :=
  if c = 'n' then '\n' else if c = 't' then '\t' else if c = 'r' then '\r' else c

/-- Modelled from the spec, §4.2: copy characters until an unescaped closing
quote, decoding escape pairs; an unterminated escape at end of line yields
no extraction. -/
def copyQuotedSpec : List Char → Option (List Char)
  | [] => some []
  | ['\\'] => none
  | '\\' :: c :: rest => (copyQuotedSpec rest).map (decodeEscape c :: ·)
  | '"' :: _ => some []
  | c :: rest => (copyQuotedSpec rest).map (c :: ·)

/-- Modelled from the spec, §4.2: find the first `"`, then copy until the
first unescaped closing quote. -/
def extract_string_spec (line : List Char) : Option (List Char) :=
  match line.dropWhile (· ≠ '"') with
  | [] => none
  | _ :: rest => copyQuotedSpec rest

/-! ### PO parsing (`parse_po_file`, Python lines 158–233)

The file content is modelled as a `List Char`.  Python's whitespace class
(`str.strip()` and `\s` in the block-splitting regex) is modelled by its
ASCII members; non-ASCII whitespace is outside the model. -/

/-- ASCII members of Python's `\s` / `str.strip()` whitespace class. -/
def isSpace (c : Char) : Bool :=
  c = ' ' ∨ c = '\t' ∨ c = '\n' ∨ c = '\r' ∨ c = '\x0b' ∨ c = '\x0c'

/-- For a candidate separator match of `re.split(r"\n\s*\n", ...)` whose
first `\n` has just been seen: `rest` is the text after that newline, and
the result is how many characters of `rest` the greedy `\s*\n` part
consumes (through the last `'\n'` of the maximal whitespace run), or
`none` when no match starts here. -/
def sepExtra (rest : List Char) : Option Nat :=
  let ws := rest.takeWhile isSpace
  let d := ws.reverse.dropWhile (· ≠ '\n')
  if d.isEmpty then none else some d.length

/-- `re.split(r"\n\s*\n", content)` (Python line 169): scan left to right,
at each leftmost match of a newline–whitespace–newline separator emit the
accumulated piece (kept reversed in `acc`) and continue after it.  The
first argument is structural-recursion fuel: every step consumes at least
one input character, so `length + 1` fuel (as supplied by `splitBlocks`)
is never exhausted and the `0` branch is unreachable. -/
def splitBlocksAux : Nat → List Char → List Char → List (List Char)
  | 0, acc, _ => [acc.reverse]
  | _ + 1, acc, [] => [acc.reverse]
  | fuel + 1, acc, c :: rest =>
      if c = '\n' then
        match sepExtra rest with
        | some n => acc.reverse :: splitBlocksAux fuel [] (rest.drop n)
        | none => splitBlocksAux fuel (c :: acc) rest
      else splitBlocksAux fuel (c :: acc) rest

def splitBlocks (content : List Char) : List (List Char) :=
  splitBlocksAux (content.length + 1) [] content

/-- Python `str.strip()` (ASCII whitespace). -/
def pyStrip (l : List Char) : List Char :=
  ((l.dropWhile isSpace).reverse.dropWhile isSpace).reverse

/-- Python `str.split("\n")` (keeps empty pieces). -/
def splitNL : List Char → List (List Char)
  | [] => [[]]
  | c :: rest =>
      if c = '\n' then [] :: splitNL rest
      else
        match splitNL rest with
        | [] => [[c]]
        | b :: bs => (c :: b) :: bs

/-- Python `str.startswith` on character lists. -/
def startsWith : List Char → List Char → Bool
  | [], _ => true
  | _ :: _, [] => false
  | p :: ps, c :: cs => p == c && startsWith ps cs

/-- The per-block accumulation state of `parse_po_file`
(`msgid`, `msgstr`, `in_msgid`, `in_msgstr`; Python lines 177–180). -/
structure BlockState where
  msgid : List Char
  msgstr : List Char
  in_msgid : Bool
  in_msgstr : Bool
deriving DecidableEq

/-- One iteration of the per-line loop of `parse_po_file`
(Python lines 182–215). -/
def procLine (st : BlockState) (rawLine : List Char) : BlockState :=
  let line := pyStrip rawLine
  if startsWith ['#'] line || line.isEmpty then st
  else if startsWith "msgid ".toList line then
    { st with
      in_msgid := true
      in_msgstr := false
      msgid := match extract_string (line.drop 6) with
               | some s => s
               | none => st.msgid }
  else if startsWith "msgstr ".toList line then
    { st with
      in_msgid := false
      in_msgstr := true
      msgstr := match extract_string (line.drop 7) with
                | some s => s
                | none => st.msgstr }
  else if startsWith ['"'] line && (st.in_msgid || st.in_msgstr) then
    match extract_string line with
    | none => st
    | some s =>
        if st.in_msgid then { st with msgid := st.msgid ++ s }
        else if st.in_msgstr then { st with msgstr := st.msgstr ++ s }
        else st
  else st

/-- Per-block processing of `parse_po_file` (Python lines 172–231; the
logging and the hash computations of lines 219–230 have no effect on the
returned list): the block contributes a pair exactly when both accumulated
fields are non-empty (Python line 218). -/
def processBlock (block : List Char) : Option (List Char × List Char) :=
  let lines := splitNL (pyStrip block)
  if lines.isEmpty then none
  else
    let st := lines.foldl procLine ⟨[], [], false, false⟩
    if ¬st.msgid.isEmpty ∧ ¬st.msgstr.isEmpty then some (st.msgid, st.msgstr)
    else none

/-- `parse_po_file` of the Python source, on file content instead of a file
name (the file is read wholesale on line 166). -/
def parse_po_file (content : List Char) : List (List Char × List Char) :=
  (splitBlocks content).filterMap processBlock

/-- Modelled from the spec, §4.2: the per-block line loop written as an
explicit recursion — `msgid ` / `msgstr ` lines open a new accumulation
(extracting the first quoted string, a failed extraction leaving the field
untouched for that line only), `"`-continuation lines are concatenated
verbatim to whichever field is open, comment and blank lines are
ignored. -/
def linesSpec : List (List Char) → List Char × List Char → Bool → Bool →
    List Char × List Char
  | [], acc, _, _ => acc
  | rawLine :: rest, (mi, ms), inMi, inMs =>
      let line := pyStrip rawLine
      if startsWith ['#'] line || line.isEmpty then
        linesSpec rest (mi, ms) inMi inMs
      else if startsWith "msgid ".toList line then
        linesSpec rest
          (match extract_string (line.drop 6) with
           | some s => s
           | none => mi, ms) true false
      else if startsWith "msgstr ".toList line then
        linesSpec rest
          (mi, match extract_string (line.drop 7) with
               | some s => s
               | none => ms) false true
      else if startsWith ['"'] line && (inMi || inMs) then
        match extract_string line with
        | none => linesSpec rest (mi, ms) inMi inMs
        | some s =>
            if inMi then linesSpec rest (mi ++ s, ms) inMi inMs
            else if inMs then linesSpec rest (mi, ms ++ s) inMi inMs
            else linesSpec rest (mi, ms) inMi inMs
      else linesSpec rest (mi, ms) inMi inMs

/-- Modelled from the spec, §4.2: a block yields a pair exactly when both
accumulated fields are non-empty. -/
def processBlockSpec (block : List Char) : Option (List Char × List Char) :=
  let r := linesSpec (splitNL (pyStrip block)) ([], []) false false
  if r.1 ≠ [] ∧ r.2 ≠ [] then some (r.1, r.2) else none

/-! ### LMO writing (`write_lmo_file`, Python lines 236–353)

`entries` are (msgid, msgstr) pairs at the byte level: each component is
the list of UTF-8 bytes of the corresponding string. -/

/-- The `LMOEntry` class of the Python source (lines 23–30). -/
structure LMOEntry where
  key_id : Nat
  val_id : Nat
  offset : Nat
  length : Nat
deriving DecidableEq

/-- `(length + 3) & ~3` (Python line 272): round up to a multiple of 4. -/
def paddedLen (length : Nat) : Nat := (length + 3) / 4 * 4

/-- First pass of `write_lmo_file` (Python lines 254–290), started at the
given running `offset`: the blob bytes written to the file (each retained
msgstr zero-padded to a 4-byte boundary), the collected index entries in
encounter order, and the final running offset.  A pair whose key and value
hashes coincide is skipped entirely (lines 265–267). -/
def firstPass : List (List Nat × List Nat) → Nat → List Nat × List LMOEntry × Nat
  | [], offset => ([], [], offset)
  | (msgid, msgstr) :: rest, offset =>
      let key_id := sfh_hash msgid
      let val_id := sfh_hash msgstr
      if key_id = val_id then firstPass rest offset
      else
        let length := msgstr.length
        let padded_length := paddedLen length
        let r := firstPass rest (offset + padded_length)
        (msgstr ++ List.replicate (padded_length - length) 0 ++ r.1,
         ⟨key_id, val_id, offset, length⟩ :: r.2.1, r.2.2)

/-- Duplicate-key scan of `write_lmo_file` (Python lines 296–329): walk the
collected entries in order against the set of already-seen key ids
(`key_to_entry`); `true` means the source prints the duplicate-key error
and calls `sys.exit(1)`. -/
def hasDupKey : List LMOEntry → List Nat → Bool
  | [], _ => false
  | e :: rest, seen =>
      if e.key_id ∈ seen then true else hasDupKey rest (e.key_id :: seen)

/-- `struct.pack(">I", n)`: unsigned 32-bit big-endian. -/
def u32be (n : Nat) : List Nat :=
  [n / 2 ^ 24 % 256, n / 2 ^ 16 % 256, n / 2 ^ 8 % 256, n % 256]

/-- The four big-endian fields of one index entry (Python lines 343–346). -/
def entryBytes (e : LMOEntry) : List Nat :=
  u32be e.key_id ++ u32be e.val_id ++ u32be e.offset ++ u32be e.length

def indexBytes (es : List LMOEntry) : List Nat :=
  (es.map entryBytes).flatten

/-- The comparison of `lmo_entries.sort(key=lambda x: x.key_id)`; Python's
sort is stable, as is `List.mergeSort`. -/
def lmoLe (a b : LMOEntry) : Bool := a.key_id ≤ b.key_id

/-- Final state of the output path after `write_lmo_file` returns (or
exits):
* `noFile` — no file exists at the path: `entries` was empty, any existing
  file was removed and none created (Python lines 240–244);
* `dupExit` — the duplicate-key error: the source prints the error and
  calls `sys.exit(1)` from inside the `with open(output, "wb")` block
  (line 327), so a file exists holding exactly the blob bytes already
  written by the first pass — the index and trailing field are never
  written;
* `ok` — normal completion: the file holds the blob, the index sorted by
  `key_id`, and — exactly when the final offset is positive — the trailing
  big-endian offset field (Python lines 331–353). -/
inductive WriteResult
  | noFile
  | dupExit (content : List Nat)
  | ok (content : List Nat)
deriving DecidableEq

/-- `write_lmo_file` of the Python source (lines 236–353). -/
def write_lmo_file (entries : List (List Nat × List Nat)) : WriteResult :=
  if entries.isEmpty then .noFile
  else
    let r := firstPass entries 0
    if hasDupKey r.2.1 [] then .dupExit r.1
    else
      .ok (r.1 ++ indexBytes ((r.2.1).mergeSort lmoLe) ++
        (if 0 < r.2.2 then u32be r.2.2 else []))

/-! ### Blob layout invariants (C10) -/

/-- The entries' blob regions are consecutive: each entry sits at the
running offset, the next region starts after the current padded length,
and the final offset closes the chain. -/
def chainFrom : Nat → List LMOEntry → Nat → Bool
  | o, [], fin => fin == o
  | o, e :: es, fin => e.offset == o && chainFrom (o + paddedLen e.length) es fin

/-! ### The two hash models agree -/

lemma mod_mod_pow (a n : Nat) : a % 2 ^ n % 2 ^ n = a % 2 ^ n :=
  Nat.mod_mod_of_dvd a dvd_rfl

lemma xor_mod_pow (a b n : Nat) :
    (a ^^^ b) % 2 ^ n = (a % 2 ^ n) ^^^ (b % 2 ^ n) := by
  apply Nat.eq_of_testBit_eq
  intro i
  simp only [Nat.testBit_mod_two_pow, Nat.testBit_xor]
  by_cases h : i < n <;> simp [h]

lemma shiftLeft_mod_pow (a k n : Nat) :
    ((a % 2 ^ n) <<< k) % 2 ^ n = (a <<< k) % 2 ^ n := by
  apply Nat.eq_of_testBit_eq
  intro i
  simp only [Nat.testBit_mod_two_pow, Nat.testBit_shiftLeft]
  by_cases h1 : i < n
  · by_cases h2 : k ≤ i
    · have h3 : i - k < n := by omega
      simp [h1, h2, h3, ge_iff_le]
    · simp [h2, ge_iff_le]
  · simp [h1]

lemma sfhAvalancheSpec_eq (a : Nat) : sfhAvalancheSpec a = sfhAvalanche a := rfl

lemma sfhAvalanche_mod (a : Nat) : sfhAvalanche (a % 2 ^ 32) = sfhAvalanche a := by
  have h : ((a % 2 ^ 32) ^^^ ((a % 2 ^ 32) <<< 3)) % 2 ^ 32
      = (a ^^^ (a <<< 3)) % 2 ^ 32 := by
    simp only [xor_mod_pow, mod_mod_pow, shiftLeft_mod_pow]
  simp only [sfhAvalanche, h]

lemma imask32_coe_mod (h : Nat) (s : Int) :
    imask32 (((h % 2 ^ 32 : Nat) : Int) + s) = imask32 ((h : Int) + s) := by
  unfold imask32
  congr 1
  push_cast
  rw [Int.emod_add_emod]

theorem loop_agree : ∀ (l : List Nat) (h : Nat),
    sfhAvalanche (sfhLoop h l) = sfhAvalancheSpec (sfhLoopSpec (h % 2 ^ 32) l)
  | [], h => by
      simp only [sfhLoop, sfhTail, sfhLoopSpec, sfhTailSpec, sfhAvalancheSpec_eq]
      exact (sfhAvalanche_mod h).symm
  | [b0], h => by
      simp only [sfhLoop, sfhTail, sfhLoopSpec, sfhTailSpec, sfhAvalancheSpec_eq,
        imask32_coe_mod]
  | [b0, b1], h => by
      simp only [sfhLoop, sfhTail, sfhLoopSpec, sfhTailSpec, sfhAvalancheSpec_eq,
        Nat.mod_add_mod]
  | [b0, b1, b2], h => by
      simp only [sfhLoop, sfhTail, sfhLoopSpec, sfhTailSpec, sfhAvalancheSpec_eq,
        Nat.mod_add_mod]
  | b0 :: b1 :: b2 :: b3 :: rest, h => by
      simp only [sfhLoop, sfhLoopSpec]
      have hkey :
          (((((h % 2 ^ 32) + (b0 ||| b1 <<< 8)) % 2 ^ 32) <<< 16) ^^^
              (((b2 ||| b3 <<< 8) <<< 11) ^^^
                (((h % 2 ^ 32) + (b0 ||| b1 <<< 8)) % 2 ^ 32)) % 2 ^ 32) % 2 ^ 32
          = (((h + (b0 ||| b1 <<< 8)) <<< 16) ^^^
              (((b2 ||| b3 <<< 8) <<< 11) ^^^ (h + (b0 ||| b1 <<< 8)))) % 2 ^ 32 := by
        simp only [Nat.mod_add_mod, xor_mod_pow, mod_mod_pow, shiftLeft_mod_pow]
      rw [hkey]
      exact (loop_agree rest _).trans (by rw [mod_mod_pow])

/-- C3: `sfh_hash` returns 0 for the empty input, and on every byte string
it computes exactly the SuperFastHash of the specification (§4.1):
initialise `h` to the byte length, consume 4-byte chunks via little-endian
16-bit reads with the specified mixing, handle the 1- and 3-byte remainders
with the lone (or third) byte sign-extended as a signed 8-bit value, apply
the fixed six-step avalanche, every intermediate truncated to 32 bits —
`sfh_hash_spec` is that algorithm written from the spec's words. -/
theorem sfh_hash_matches_spec :
    sfh_hash [] = 0 ∧ ∀ data : List Nat, sfh_hash data = sfh_hash_spec data := by
  refine ⟨rfl, fun data => ?_⟩
  cases data with
  | nil => rfl
  | cons a l =>
      simp only [sfh_hash, sfh_hash_spec, List.isEmpty_cons, Bool.false_eq_true,
        if_false]
      exact loop_agree (a :: l) (a :: l).length

theorem scanQuoted_eq_copy : ∀ l : List Char, scanQuoted l false = copyQuotedSpec l
  | [] => rfl
  | c :: rest => by
      by_cases hb : c = '\\'
      · subst hb
        cases rest with
        | nil => rfl
        | cons c' rest' =>
            have hd : (if c' = '"' ∨ c' = '\\' then c'
                else if c' = 'n' then '\n'
                else if c' = 't' then '\t'
                else if c' = 'r' then '\r'
                else c') = decodeEscape c' := by
              unfold decodeEscape
              by_cases h1 : c' = '"' ∨ c' = '\\'
              · rcases h1 with h1 | h1 <;> subst h1 <;> simp
              · simp [h1]
            simp [scanQuoted, copyQuotedSpec, hd, scanQuoted_eq_copy rest']
      · by_cases hq : c = '"'
        · subst hq
          simp [scanQuoted, copyQuotedSpec]
        · rw [show scanQuoted (c :: rest) false
              = (scanQuoted rest false).map (c :: ·) by simp [scanQuoted, hb, hq]]
          rw [show copyQuotedSpec (c :: rest)
              = (copyQuotedSpec rest).map (c :: ·) by
            rw [copyQuotedSpec.eq_def]
            split <;> simp_all]
          rw [scanQuoted_eq_copy rest]

/-- C4: `extract_string` takes the text after the first double quote up to
the first unescaped closing quote, decoding `\"`, `\\`, `\n`, `\t`, `\r`
and passing any other escaped character through (backslash dropped); an
unterminated trailing escape yields `none`; and the line body
`"She said \"hi\""` decodes to the literal text `She said "hi"`. -/
theorem extract_string_correct :
    (∀ line : List Char, extract_string line = extract_string_spec line) ∧
      extract_string ("\"She said \\\"hi\\\"\"".toList)
        = some ("She said \"hi\"".toList) := by
  constructor
  · intro line
    unfold extract_string extract_string_spec
    cases line.dropWhile (· ≠ '"') with
    | nil => rfl
    | cons c rest => exact scanQuoted_eq_copy rest
  · rfl

/-! ### First-pass bookkeeping lemmas -/

lemma le_paddedLen (l : Nat) : l ≤ paddedLen l := by
  unfold paddedLen; omega

lemma paddedLen_mod_four (l : Nat) : paddedLen l % 4 = 0 := by
  unfold paddedLen; omega

/-- The key ids collected by the first pass are the msgid hashes of the
retained pairs, in encounter order. -/
lemma firstPass_keys : ∀ (entries : List (List Nat × List Nat)) (off : Nat),
    ((firstPass entries off).2.1).map (·.key_id)
      = (entries.filter (fun p => !(sfh_hash p.1 == sfh_hash p.2))).map
          (fun p => sfh_hash p.1)
  | [], _ => rfl
  | (m, s) :: rest, off => by
      by_cases h : sfh_hash m = sfh_hash s <;>
        simp [firstPass, h, List.filter_cons, firstPass_keys rest]

/-- The final running offset is the entry offset plus the padded lengths of
the retained entries. -/
lemma firstPass_offset : ∀ (entries : List (List Nat × List Nat)) (off : Nat),
    (firstPass entries off).2.2
      = off + (((firstPass entries off).2.1).map (fun e => paddedLen e.length)).sum
  | [], _ => by simp [firstPass]
  | (m, s) :: rest, off => by
      by_cases h : sfh_hash m = sfh_hash s
      · simp [firstPass, h, firstPass_offset rest]
      · simp only [firstPass, h, if_false, List.map_cons, List.sum_cons]
        rw [firstPass_offset rest (off + paddedLen s.length)]
        omega

/-- The blob written by the first pass has exactly the total padded length. -/
lemma firstPass_blob_length : ∀ (entries : List (List Nat × List Nat)) (off : Nat),
    (firstPass entries off).1.length
      = (((firstPass entries off).2.1).map (fun e => paddedLen e.length)).sum
  | [], _ => rfl
  | (m, s) :: rest, off => by
      by_cases h : sfh_hash m = sfh_hash s
      · simp [firstPass, h, firstPass_blob_length rest]
      · simp only [firstPass, h, if_false, List.map_cons, List.sum_cons,
          List.append_assoc, List.length_append, List.length_replicate]
        rw [firstPass_blob_length rest (off + paddedLen s.length)]
        have := le_paddedLen s.length
        omega

/-- C6: a pair whose msgid and msgstr hash to the same value is skipped
entirely by the first pass of `write_lmo_file`: wherever it sits in the
pair list it contributes no blob bytes, no index entry, and does not
advance the running offset. -/
theorem same_hash_pair_skipped (l1 l2 : List (List Nat × List Nat)) (off : Nat)
    (m s : List Nat) (h : sfh_hash m = sfh_hash s) :
    firstPass (l1 ++ (m, s) :: l2) off = firstPass (l1 ++ l2) off := by
  induction l1 generalizing off with
  | nil => simp [firstPass, h]
  | cons p l1 ih =>
      obtain ⟨pm, ps⟩ := p
      by_cases hp : sfh_hash pm = sfh_hash ps <;>
        simp [firstPass, hp, ih]

/-- Concrete instance of `same_hash_pair_skipped`: msgid and msgstr both
`"a"`. -/
theorem same_hash_pair_skipped_witness :
    firstPass [([97], [97])] 0 = firstPass [] 0 :=
  same_hash_pair_skipped [] [] 0 [97] [97] rfl

/-! ### The duplicate-key scan -/

lemma hasDupKey_false_iff : ∀ (es : List LMOEntry) (seen : List Nat),
    hasDupKey es seen = false
      ↔ (es.map (·.key_id)).Nodup ∧ ∀ k ∈ es.map (·.key_id), k ∉ seen
  | [], seen => by simp [hasDupKey]
  | e :: rest, seen => by
      by_cases h : e.key_id ∈ seen
      · simp only [hasDupKey, if_pos h]
        simp only [List.map_cons, List.nodup_cons, List.mem_cons]
        constructor
        · intro hfalse; cases hfalse
        · rintro ⟨-, hall⟩
          exact absurd h (hall e.key_id (Or.inl rfl))
      · simp only [hasDupKey, if_neg h, hasDupKey_false_iff rest (e.key_id :: seen)]
        simp only [List.map_cons, List.nodup_cons, List.mem_cons, List.mem_map]
        constructor
        · rintro ⟨hnd, hall⟩
          refine ⟨⟨?_, hnd⟩, ?_⟩
          · rintro ⟨x, hx, hkx⟩
            exact absurd (Or.inl rfl) (hall _ ⟨x, hx, hkx⟩)
          · rintro k (rfl | ⟨x, hx, rfl⟩)
            · exact h
            · intro hk
              exact absurd (Or.inr hk) (hall _ ⟨x, hx, rfl⟩)
        · rintro ⟨⟨hmem, hnd⟩, hall⟩
          refine ⟨hnd, ?_⟩
          rintro k ⟨x, hx, rfl⟩ (hk | hk)
          · exact hmem ⟨x, hx, hk⟩
          · exact absurd hk (hall _ (Or.inr ⟨x, hx, rfl⟩))

/-- Two occurrences of the same value rule out `Nodup`. -/
lemma not_nodup_of_two (a : Nat) (xs ys zs : List Nat) :
    ¬ (xs ++ (a :: (ys ++ a :: zs))).Nodup := by
  intro h
  have h2 : (a :: (ys ++ a :: zs)).Nodup := h.of_append_right
  rw [List.nodup_cons] at h2
  exact h2.1 (by simp)

/-- A non-`Nodup` retained key list sends `write_lmo_file` into the
duplicate-key exit, with exactly the first-pass blob on disk. -/
lemma write_dup_of_not_nodup (entries : List (List Nat × List Nat))
    (hne : entries ≠ [])
    (h : ¬ (((firstPass entries 0).2.1).map (·.key_id)).Nodup) :
    write_lmo_file entries = .dupExit (firstPass entries 0).1 := by
  have h0 : entries.isEmpty = false := by
    cases entries with
    | nil => exact absurd rfl hne
    | cons a l => rfl
  have hdup : hasDupKey (firstPass entries 0).2.1 [] = true := by
    rcases Bool.eq_false_or_eq_true (hasDupKey (firstPass entries 0).2.1 []) with ht | hf
    · exact ht
    · exact absurd ((hasDupKey_false_iff _ _).1 hf).1 h
  simp [write_lmo_file, h0, hdup]

/-- C1 (amended): two retained entries with distinct msgids whose key
hashes collide make `write_lmo_file` exit with the duplicate-key error;
the output file exists, holding exactly the blob bytes already written by
the first pass (the index and the trailing field are never written). -/
theorem dup_hash_exits_leaving_blob
    (l1 l2 l3 : List (List Nat × List Nat)) (p q : List Nat × List Nat)
    (hp : sfh_hash p.1 ≠ sfh_hash p.2) (hq : sfh_hash q.1 ≠ sfh_hash q.2)
    (hcol : sfh_hash p.1 = sfh_hash q.1) (hneq : p.1 ≠ q.1) :
    write_lmo_file (l1 ++ p :: l2 ++ q :: l3)
      = .dupExit (firstPass (l1 ++ p :: l2 ++ q :: l3) 0).1 := by
  apply write_dup_of_not_nodup
  · simp
  · intro hnd
    rw [firstPass_keys] at hnd
    have hfp : (!(sfh_hash p.1 == sfh_hash p.2)) = true := by simpa using hp
    have hfq : (!(sfh_hash q.1 == sfh_hash q.2)) = true := by simpa using hq
    simp only [List.filter_append, List.filter_cons, hfp, hfq, if_true,
      List.map_append, List.map_cons, List.cons_append, List.append_assoc] at hnd
    rw [← hcol] at hnd
    exact not_nodup_of_two (sfh_hash p.1) _ _ _ hnd

/-- Concrete instance: msgids `"fq1"` and `"gHp"` collide under the hash. -/
theorem dup_hash_exits_leaving_blob_witness :
    write_lmo_file [([102, 113, 49], [120]), ([103, 72, 112], [121])]
      = .dupExit (firstPass [([102, 113, 49], [120]), ([103, 72, 112], [121])] 0).1 :=
  dup_hash_exits_leaving_blob [] [] [] ([102, 113, 49], [120]) ([103, 72, 112], [121])
    (by decide) (by decide) (by decide) (by decide)

/-- C1's original wording fails on the code: on a colliding pair list,
the call does exit with the duplicate-key error, but a file does remain at
the output path — it holds the 8 partial blob bytes (dupExit means
`sys.exit(1)` fired inside `with open(...)`, leaving the file on disk). -/
theorem dup_hash_no_file_counterexample :
    write_lmo_file [([102, 113, 49], [120]), ([103, 72, 112], [121])]
      = .dupExit [120, 0, 0, 0, 121, 0, 0, 0] ∧
    WriteResult.dupExit [120, 0, 0, 0, 121, 0, 0, 0] ≠ .noFile := by
  constructor
  · decide
  · decide

/-- C9: the duplicate-key check keys on hashes only, so two retained
entries with the *same* msgid — including the same (msgid, msgstr) pair
listed twice — also make `write_lmo_file` exit with the duplicate-key
error instead of deduplicating. -/
theorem duplicate_msgid_fatal
    (l1 l2 l3 : List (List Nat × List Nat)) (p q : List Nat × List Nat)
    (hp : sfh_hash p.1 ≠ sfh_hash p.2) (hq : sfh_hash q.1 ≠ sfh_hash q.2)
    (hid : p.1 = q.1) :
    write_lmo_file (l1 ++ p :: l2 ++ q :: l3)
      = .dupExit (firstPass (l1 ++ p :: l2 ++ q :: l3) 0).1 := by
  apply write_dup_of_not_nodup
  · simp
  · intro hnd
    rw [firstPass_keys] at hnd
    have hfp : (!(sfh_hash p.1 == sfh_hash p.2)) = true := by simpa using hp
    have hfq : (!(sfh_hash q.1 == sfh_hash q.2)) = true := by simpa using hq
    simp only [List.filter_append, List.filter_cons, hfp, hfq, if_true,
      List.map_append, List.map_cons, List.cons_append, List.append_assoc] at hnd
    rw [show sfh_hash q.1 = sfh_hash p.1 from by rw [hid]] at hnd
    exact not_nodup_of_two (sfh_hash p.1) _ _ _ hnd

/-- Concrete instance: the exact same pair listed twice is fatal. -/
theorem duplicate_msgid_fatal_witness :
    write_lmo_file [([97], [98]), ([97], [98])]
      = .dupExit (firstPass [([97], [98]), ([97], [98])] 0).1 :=
  duplicate_msgid_fatal [] [] [] ([97], [98]) ([97], [98])
    (by decide) (by decide) rfl

/-! ### Zero eligible entries (C2) -/

lemma firstPass_all_skipped : ∀ (entries : List (List Nat × List Nat)) (off : Nat),
    (∀ p ∈ entries, sfh_hash p.1 = sfh_hash p.2) →
    firstPass entries off = ([], [], off)
  | [], _, _ => rfl
  | (m, s) :: rest, off, hall => by
      have hm : sfh_hash m = sfh_hash s := hall (m, s) (by simp)
      have := firstPass_all_skipped rest off (fun p hp => hall p (by simp [hp]))
      simp [firstPass, hm, this]

/-- C2 (amended): an empty pair list leaves no file at the output path
(any pre-existing file is removed); but a non-empty pair list all of whose
pairs are skipped (`hash(msgid) == hash(msgstr)`) still creates a 0-byte
file (`open(output, "wb")` truncates/creates before the pairs are
examined). -/
theorem zero_eligible_entries
    (entries : List (List Nat × List Nat)) :
    write_lmo_file [] = .noFile ∧
    (entries ≠ [] → (∀ p ∈ entries, sfh_hash p.1 = sfh_hash p.2) →
      write_lmo_file entries = .ok []) := by
  refine ⟨rfl, fun hne hall => ?_⟩
  have h0 : entries.isEmpty = false := by
    cases entries with
    | nil => exact absurd rfl hne
    | cons a l => rfl
  simp [write_lmo_file, h0, firstPass_all_skipped entries 0 hall, hasDupKey,
    indexBytes, List.mergeSort_nil]

/-- Concrete instance of `zero_eligible_entries`. -/
theorem zero_eligible_entries_witness :
    write_lmo_file [([97], [97])] = .ok [] :=
  (zero_eligible_entries [([97], [97])]).2 (by simp) (by decide)

/-- C2's original wording fails on the code: a single pair whose msgid and
msgstr are both `"a"` is skipped, yet a (0-byte) output file is created
(`ok []`), rather than no file / removal of a pre-existing file. -/
theorem zero_eligible_entries_counterexample :
    write_lmo_file [([97], [97])] = .ok [] ∧ WriteResult.ok [] ≠ .noFile := by
  refine ⟨?_, by decide⟩
  simp [write_lmo_file, firstPass, hasDupKey, indexBytes, List.mergeSort_nil]

/-! ### Successful runs: trailing field, sortedness (C7, C8) -/

/-- What a successful (`ok`) run of `write_lmo_file` tells us. -/
lemma ok_inversion (entries : List (List Nat × List Nat)) (c : List Nat)
    (h : write_lmo_file entries = .ok c) :
    hasDupKey (firstPass entries 0).2.1 [] = false ∧
    c = (firstPass entries 0).1
        ++ indexBytes (((firstPass entries 0).2.1).mergeSort lmoLe)
        ++ (if 0 < (firstPass entries 0).2.2 then u32be (firstPass entries 0).2.2
            else []) := by
  simp only [write_lmo_file] at h
  split at h
  · cases h
  · split at h
    · cases h
    · rename_i hdup
      simp only [WriteResult.ok.injEq] at h
      exact ⟨Bool.of_not_eq_true hdup, h.symm⟩

lemma lmoLe_trans (a b c : LMOEntry) :
    lmoLe a b = true → lmoLe b c = true → lmoLe a c = true := by
  simp only [lmoLe, decide_eq_true_iff]
  omega

lemma lmoLe_total (a b : LMOEntry) : (lmoLe a b || lmoLe b a) = true := by
  simp only [lmoLe, Bool.or_eq_true, decide_eq_true_iff]
  omega

/-- C7: on every successful run, the sum of the 4-byte-padded lengths of
the written index entries equals the running offset — the value of the
trailing big-endian field — the blob has exactly that many bytes, and the
trailing field is present in the file exactly when the blob is non-empty. -/
theorem padded_sum_equals_trailing (entries : List (List Nat × List Nat))
    (c : List Nat) (h : write_lmo_file entries = .ok c) :
    ((((firstPass entries 0).2.1).mergeSort lmoLe).map
        (fun e => paddedLen e.length)).sum = (firstPass entries 0).2.2 ∧
    (firstPass entries 0).1.length = (firstPass entries 0).2.2 ∧
    c = (firstPass entries 0).1
        ++ indexBytes (((firstPass entries 0).2.1).mergeSort lmoLe)
        ++ (if 0 < (firstPass entries 0).2.2 then u32be (firstPass entries 0).2.2
            else []) ∧
    (0 < (firstPass entries 0).2.2 ↔ (firstPass entries 0).1 ≠ []) := by
  obtain ⟨-, hc⟩ := ok_inversion entries c h
  have hperm :
      ((((firstPass entries 0).2.1).mergeSort lmoLe).map
          (fun e => paddedLen e.length)).sum
        = (((firstPass entries 0).2.1).map (fun e => paddedLen e.length)).sum :=
    (List.Perm.map _ (List.mergeSort_perm _ lmoLe)).sum_eq
  have hoff := firstPass_offset entries 0
  have hblob := firstPass_blob_length entries 0
  refine ⟨by omega, by omega, hc, ?_⟩
  rw [← List.length_pos]
  omega

/-- Concrete instance: a single eligible pair (`"a"` → `"x"`). -/
theorem padded_sum_equals_trailing_witness :
    ((((firstPass [([97], [120])] 0).2.1).mergeSort lmoLe).map
        (fun e => paddedLen e.length)).sum = (firstPass [([97], [120])] 0).2.2 ∧
    (firstPass [([97], [120])] 0).1.length = (firstPass [([97], [120])] 0).2.2 ∧
    [120, 0, 0, 0, 17, 94, 167, 130, 15, 130, 123, 159, 0, 0, 0, 0, 0, 0, 0, 1,
      0, 0, 0, 4]
      = (firstPass [([97], [120])] 0).1
        ++ indexBytes (((firstPass [([97], [120])] 0).2.1).mergeSort lmoLe)
        ++ (if 0 < (firstPass [([97], [120])] 0).2.2
            then u32be (firstPass [([97], [120])] 0).2.2 else []) ∧
    (0 < (firstPass [([97], [120])] 0).2.2 ↔ (firstPass [([97], [120])] 0).1 ≠ []) :=
  padded_sum_equals_trailing [([97], [120])] _ (by
    have h97 : sfh_hash [97] = 291415938 := by decide
    have h120 : sfh_hash [120] = 260209567 := by decide
    simp [write_lmo_file, firstPass, h97, h120, hasDupKey, paddedLen,
      List.mergeSort_singleton, indexBytes, entryBytes, u32be])

/-- C8: in every file produced by a successful run, the index entries are
sorted by ascending `key_id` (non-decreasing in file order), their key ids
are pairwise distinct (so ties cannot occur and stability is vacuous), and
the written sequence is a permutation of the entries in encounter order. -/
theorem index_sorted_by_key (entries : List (List Nat × List Nat))
    (c : List Nat) (h : write_lmo_file entries = .ok c) :
    c = (firstPass entries 0).1
        ++ indexBytes (((firstPass entries 0).2.1).mergeSort lmoLe)
        ++ (if 0 < (firstPass entries 0).2.2 then u32be (firstPass entries 0).2.2
            else []) ∧
    (((firstPass entries 0).2.1).mergeSort lmoLe).Pairwise
      (fun a b => a.key_id ≤ b.key_id) ∧
    ((((firstPass entries 0).2.1).mergeSort lmoLe).map (·.key_id)).Nodup ∧
    (((firstPass entries 0).2.1).mergeSort lmoLe).Perm (firstPass entries 0).2.1 := by
  obtain ⟨hdup, hc⟩ := ok_inversion entries c h
  refine ⟨hc, ?_, ?_, List.mergeSort_perm _ lmoLe⟩
  · have := List.sorted_mergeSort lmoLe_trans lmoLe_total (firstPass entries 0).2.1
    exact this.imp (by simp only [lmoLe, decide_eq_true_iff]; exact fun h => h)
  · have hnd : (((firstPass entries 0).2.1).map (·.key_id)).Nodup :=
      ((hasDupKey_false_iff _ _).1 hdup).1
    exact ((List.Perm.map _ (List.mergeSort_perm _ lmoLe)).nodup_iff).2 hnd

/-- Concrete instance: two eligible pairs arrive with keys out of order
(`hash "b" > hash "a"`) and get sorted. -/
theorem index_sorted_by_key_witness :
    [121, 0, 0, 0, 120, 0, 0, 0, 17, 94, 167, 130, 15, 130, 123, 159, 0, 0, 0, 4,
      0, 0, 0, 1, 112, 193, 160, 225, 169, 246, 222, 52, 0, 0, 0, 0, 0, 0, 0, 1,
      0, 0, 0, 8]
      = (firstPass [([98], [121]), ([97], [120])] 0).1
        ++ indexBytes (((firstPass [([98], [121]), ([97], [120])] 0).2.1).mergeSort lmoLe)
        ++ (if 0 < (firstPass [([98], [121]), ([97], [120])] 0).2.2
            then u32be (firstPass [([98], [121]), ([97], [120])] 0).2.2 else []) ∧
    (((firstPass [([98], [121]), ([97], [120])] 0).2.1).mergeSort lmoLe).Pairwise
      (fun a b => a.key_id ≤ b.key_id) ∧
    ((((firstPass [([98], [121]), ([97], [120])] 0).2.1).mergeSort lmoLe).map
      (·.key_id)).Nodup ∧
    (((firstPass [([98], [121]), ([97], [120])] 0).2.1).mergeSort lmoLe).Perm
      (firstPass [([98], [121]), ([97], [120])] 0).2.1 :=
  index_sorted_by_key [([98], [121]), ([97], [120])] _ (by
    have h97 : sfh_hash [97] = 291415938 := by decide
    have h98 : sfh_hash [98] = 1891737825 := by decide
    have h120 : sfh_hash [120] = 260209567 := by decide
    have h121 : sfh_hash [121] = 2851528244 := by decide
    simp [write_lmo_file, firstPass, h97, h98, h120, h121, hasDupKey, paddedLen,
      List.mergeSort, indexBytes, entryBytes, u32be, lmoLe])

lemma chainFrom_firstPass : ∀ (entries : List (List Nat × List Nat)) (o : Nat),
    chainFrom o (firstPass entries o).2.1 (firstPass entries o).2.2 = true
  | [], o => by simp [firstPass, chainFrom]
  | (m, s) :: rest, o => by
      by_cases h : sfh_hash m = sfh_hash s
      · simpa [firstPass, h] using chainFrom_firstPass rest o
      · simpa [firstPass, h, chainFrom] using
          chainFrom_firstPass rest (o + paddedLen s.length)

lemma firstPass_layout : ∀ (entries : List (List Nat × List Nat)) (o : Nat),
    o % 4 = 0 →
    ((firstPass entries o).2.1).all
      (fun e => e.offset % 4 == 0
        && decide (e.offset + e.length ≤ (firstPass entries o).2.2)) = true
  | [], o, _ => by simp [firstPass]
  | (m, s) :: rest, o, ho => by
      by_cases h : sfh_hash m = sfh_hash s
      · simpa [firstPass, h] using firstPass_layout rest o ho
      · have hrec := firstPass_layout rest (o + paddedLen s.length)
          (by have := paddedLen_mod_four s.length; omega)
        have hoff := firstPass_offset rest (o + paddedLen s.length)
        have hlen := le_paddedLen s.length
        simp only [firstPass, h, if_false, List.all_cons, Bool.and_eq_true,
          beq_iff_eq, decide_eq_true_iff]
        exact ⟨⟨ho, by omega⟩, hrec⟩

/-- C10: starting from offset 0, every collected index entry's offset is a
multiple of 4, the blob regions are consecutive in input order (hence
pairwise disjoint), and each entry's offset plus its unpadded length stays
within the final total blob length. -/
theorem index_layout (entries : List (List Nat × List Nat)) :
    chainFrom 0 (firstPass entries 0).2.1 (firstPass entries 0).2.2 = true ∧
    ((firstPass entries 0).2.1).all
      (fun e => e.offset % 4 == 0
        && decide (e.offset + e.length ≤ (firstPass entries 0).2.2)) = true :=
  ⟨chainFrom_firstPass entries 0, firstPass_layout entries 0 rfl⟩

/-! ### The parser agrees with the spec-side block model (C5) -/

lemma splitNL_ne_nil : ∀ l : List Char, splitNL l ≠ []
  | [] => by simp [splitNL]
  | c :: rest => by
      simp only [splitNL]
      split
      · simp
      · split <;> simp

lemma linesSpec_cons (rawLine : List Char) (rest : List (List Char))
    (st : BlockState) :
    linesSpec (rawLine :: rest) (st.msgid, st.msgstr) st.in_msgid st.in_msgstr
      = linesSpec rest
          ((procLine st rawLine).msgid, (procLine st rawLine).msgstr)
          (procLine st rawLine).in_msgid (procLine st rawLine).in_msgstr := by
  obtain ⟨mi, ms, inMi, inMs⟩ := st
  simp only [linesSpec, procLine]
  by_cases h1 : (startsWith ['#'] (pyStrip rawLine) || (pyStrip rawLine).isEmpty) = true
  · simp [h1]
  · by_cases h2 : startsWith ['m', 's', 'g', 'i', 'd', ' '] (pyStrip rawLine) = true
    · simp [h1, h2]
    · by_cases h3 :
          startsWith ['m', 's', 'g', 's', 't', 'r', ' '] (pyStrip rawLine) = true
      · simp [h1, h2, h3]
      · by_cases h4 : (startsWith ['"'] (pyStrip rawLine) && (inMi || inMs)) = true
        · have hA : startsWith ['"'] (pyStrip rawLine) = true := by
            have h4' := h4
            simp only [Bool.and_eq_true] at h4'
            exact h4'.1
          rcases hx : extract_string (pyStrip rawLine) with _ | s
          · simp [h1, h2, h3, h4, hA, hx]
          · by_cases h5 : inMi = true
            · simp [h1, h2, h3, h4, hA, hx, h5]
            · by_cases h6 : inMs = true <;> simp [h1, h2, h3, h4, hA, hx, h5, h6]
        · simp [h1, h2, h3, h4]

lemma linesSpec_foldl : ∀ (lines : List (List Char)) (st : BlockState),
    linesSpec lines (st.msgid, st.msgstr) st.in_msgid st.in_msgstr
      = ((lines.foldl procLine st).msgid, (lines.foldl procLine st).msgstr)
  | [], _ => rfl
  | rawLine :: rest, st => by
      rw [List.foldl_cons, linesSpec_cons rawLine rest st]
      exact linesSpec_foldl rest (procLine st rawLine)

lemma processBlock_eq_spec (block : List Char) :
    processBlock block = processBlockSpec block := by
  unfold processBlock processBlockSpec
  have hisempty : (splitNL (pyStrip block)).isEmpty = false := by
    cases h : splitNL (pyStrip block) with
    | nil => exact absurd h (splitNL_ne_nil (pyStrip block))
    | cons a l => rfl
  have hfold := linesSpec_foldl (splitNL (pyStrip block)) ⟨[], [], false, false⟩
  simp only at hfold
  simp only [hisempty, Bool.false_eq_true, if_false, hfold]
  simp [List.isEmpty_iff]

/-- C5: `parse_po_file` splits the input into blocks at the blank-line
separators, processes each block by the spec's accumulation rules
(`processBlockSpec`, modelled from the spec), emits a pair for a block iff
both accumulated fields are non-empty, preserves block order, and handles
the spec's `"Hello"/"Bonjour"` example and multi-line accumulation. -/
theorem parse_po_file_correct :
    (∀ content : List Char,
        parse_po_file content = (splitBlocks content).filterMap processBlockSpec) ∧
    (∀ (content : List Char) (p : List Char × List Char),
        p ∈ parse_po_file content → p.1 ≠ [] ∧ p.2 ≠ []) ∧
    parse_po_file ("msgid \"Hello\"\nmsgstr \"Bonjour\"".toList)
      = [("Hello".toList, "Bonjour".toList)] ∧
    parse_po_file
        ("# c\nmsgid \"He\"\n\"llo\"\nmsgstr \"x\"\n\nmsgid \"\"\nmsgstr \"y\"".toList)
      = [("Hello".toList, "x".toList)] := by
  refine ⟨?_, ?_, by decide, by decide⟩
  · intro content
    unfold parse_po_file
    rw [funext processBlock_eq_spec]
  · intro content p hp
    unfold parse_po_file at hp
    rw [List.mem_filterMap] at hp
    obtain ⟨b, -, hb⟩ := hp
    simp only [processBlock] at hb
    split at hb
    · cases hb
    · split at hb
      · rename_i hcond
        rw [Option.some.injEq] at hb
        subst hb
        simp only [List.isEmpty_iff] at hcond
        exact ⟨hcond.1, hcond.2⟩
      · cases hb

/-- Concrete instance of the non-emptiness guarantee, at the spec's
`"Hello"/"Bonjour"` example. -/
theorem parse_po_file_correct_witness :
    ("Hello".toList, "Bonjour".toList).1 ≠ [] ∧
    ("Hello".toList, "Bonjour".toList).2 ≠ [] :=
  parse_po_file_correct.2.1 ("msgid \"Hello\"\nmsgstr \"Bonjour\"".toList)
    ("Hello".toList, "Bonjour".toList) (by decide)

end Po2lmo
